import Mathlib

/-!
# Verification of `askbot/utils/html.py`

Shallow embedding of the HTML sanitization / transformation utilities of
`askbot/utils/html.py` together with proofs of the specified properties.

The module's own code drives external collaborators (the html5lib sanitizing
tokenizer and serializer, BeautifulSoup tree operations, Django's `urlize`,
`urlparse`).  Where the behaviour of those collaborators decides a property
and their code is not part of the repository, the corresponding definition is
modelled from the specification's description of that behaviour; each such
definition says so in its doc comment.  Everything that is literally in
`html.py` (the allow-lists, the regular expressions of `absolutize_urls`,
`format_url_replacement`, the decorator composition, the control flow of
`strip_tags` / `moderate_tags` / `urlize_html`) is translated directly from
the source.
-/

namespace Askbot

/-! ## Character utilities (ASCII, via `Char.toNat`) -/

/-- An ASCII lower-case letter (`a`–`z`). -/
def isLowerAlpha (c : Char) : Bool := 97 ≤ c.toNat ∧ c.toNat ≤ 122

/-- An ASCII upper-case letter (`A`–`Z`). -/
def isUpperAlpha (c : Char) : Bool := 65 ≤ c.toNat ∧ c.toNat ≤ 90

/-- An ASCII digit. -/
def isDigitChar (c : Char) : Bool := 48 ≤ c.toNat ∧ c.toNat ≤ 57

/-- A character allowed in a tag / attribute name by the tokenizer model. -/
def isNameChar (c : Char) : Bool := isLowerAlpha c || isUpperAlpha c || isDigitChar c

/-- ASCII whitespace as used by the HTML tokenizer. -/
def isSpaceChar (c : Char) : Bool :=
  c.toNat = 32 || c.toNat = 9 || c.toNat = 10 || c.toNat = 13 || c.toNat = 12

/-- Lower-casing of a single ASCII character (models Python/html5lib
lower-casing of tag and attribute names). -/
def asciiLower (c : Char) : Char :=
  if 65 ≤ c.toNat ∧ c.toNat ≤ 90 then Char.ofNat (c.toNat + 32) else c

/-! ## HTML escaping and entity decoding -/

/-- Escaping of one character of text content, as done by the serializer
(`&`, `<`, `>` become entities). -/
def escTextChar (c : Char) : List Char :=
  if c.toNat = 38 then ['&', 'a', 'm', 'p', ';']
  else if c.toNat = 60 then ['&', 'l', 't', ';']
  else if c.toNat = 62 then ['&', 'g', 't', ';']
  else [c]

/-- Escaping of text content. -/
def escapeText (cs : List Char) : List Char :=
  cs.foldr (fun c r => escTextChar c ++ r) []

/-- Escaping of one character of an attribute value (`&` and `"`). -/
def escAttrChar (c : Char) : List Char :=
  if c.toNat = 38 then ['&', 'a', 'm', 'p', ';']
  else if c.toNat = 34 then ['&', 'q', 'u', 'o', 't', ';']
  else [c]

/-- Escaping of a double-quoted attribute value. -/
def escapeAttr (cs : List Char) : List Char :=
  cs.foldr (fun c r => escAttrChar c ++ r) []

/-- Modelled from the spec: entity decoding done by the tolerant tokenizer
(html5lib, not part of the repository).  The named references the serializer
itself produces are decoded; an unrecognized reference is left verbatim
("lookup-miss during unescape", spec §7). -/
def entityDecode : List Char → List Char
  | [] => []
  | c :: rest =>
    if c = '&' then
      match rest with
      | 'a' :: 'm' :: 'p' :: ';' :: r => '&' :: entityDecode r
      | 'l' :: 't' :: ';' :: r => '<' :: entityDecode r
      | 'g' :: 't' :: ';' :: r => '>' :: entityDecode r
      | 'q' :: 'u' :: 'o' :: 't' :: ';' :: r => '"' :: entityDecode r
      | other => '&' :: entityDecode other
    else c :: entityDecode rest

/-! ## Allow-lists (translated from `html.py` lines 20–35)

`HTMLSanitizerMixin.__init__` reads `ASKBOT_ALLOWED_HTML_ELEMENTS` /
`ASKBOT_ALLOWED_HTML_ATTRIBUTES` from the (external) Django settings,
defaulting to these module-level tuples; the development uses the defaults. -/

def ALLOWED_HTML_ELEMENTS : List String :=
  ["a", "abbr", "acronym", "address", "b", "big",
   "blockquote", "br", "caption", "center", "cite", "code", "col",
   "colgroup", "dd", "del", "dfn", "dir", "div", "dl", "dt", "em", "font",
   "h1", "h2", "h3", "h4", "h5", "h6", "hr", "i", "img", "ins", "kbd",
   "li", "ol", "p", "pre", "q", "s", "samp", "small", "span", "strike",
   "strong", "sub", "sup", "table", "tbody", "td", "tfoot", "th", "thead",
   "tr", "tt", "u", "ul", "var", "param"]

def ALLOWED_HTML_ATTRIBUTES : List String :=
  ["abbr", "align", "alt", "axis", "border", "class",
   "cellpadding", "cellspacing", "char", "charoff", "charset", "cite",
   "cols", "colspan", "datetime", "dir", "frame", "headers", "height",
   "href", "hreflang", "hspace", "lang", "longdesc", "name", "nohref",
   "noshade", "nowrap", "rel", "rev", "rows", "rowspan", "rules", "scope",
   "span", "src", "start", "summary", "title", "type", "valign", "vspace",
   "width"]

/-! ## Tokens -/

/-- Modelled from the spec (§3, Data Model): the token alphabet of the
html5lib tokenizer wrapped by `HTMLSanitizer` —
`{StartTag(name, attrs), EndTag(name), Characters(text), Comment, Doctype}`. -/
inductive Token where
  | startTag (name : String) (attrs : List (String × String))
  | endTag (name : String)
  | chars (s : String)
  | comment (s : String)
  | doctype
deriving DecidableEq, Repr

/-! ## Serializer

Modelled from the spec (§4.2): serialization "with optional end tags always
emitted explicitly, all attribute values quoted"
(`HTMLSerializer(omit_optional_tags=False, quote_attr_values=True)`). -/

/-- One serialized attribute: a space, the name, `="`, the escaped value, `"`. -/
def serAttr (p : String × String) : List Char :=
  ' ' :: p.1.data ++ '=' :: '"' :: escapeAttr p.2.data ++ ['"']

/-- Serialized attribute list. -/
def serAttrs (attrs : List (String × String)) : List Char :=
  attrs.foldr (fun p r => serAttr p ++ r) []

/-- Modelled from the spec: serialization of one token by the html5lib
serializer (not part of the repository), with end tags always emitted and
attribute values always double-quoted. -/
def serToken : Token → List Char
  | Token.startTag n attrs => '<' :: n.data ++ serAttrs attrs ++ ['>']
  | Token.endTag n => '<' :: '/' :: n.data ++ ['>']
  | Token.chars s => escapeText s.data
  | Token.comment s => '<' :: '!' :: '-' :: '-' :: s.data ++ ['-', '-', '>']
  | Token.doctype => ('<' :: '!' :: "DOCTYPE html".data) ++ ['>']

/-- Serialized token stream. -/
def serTokens (ts : List Token) : List Char :=
  ts.foldr (fun t r => serToken t ++ r) []

/-! ## Tokenizer

Modelled from the spec (§2, §4.1): the "standards-compliant HTML tokenizer"
(html5lib's `HTMLTokenizer`, not part of the repository), wrapped by
`HTMLSanitizer` with `lowercaseElementName=True, lowercaseAttrName=True`.
Tolerant: malformed input never fails, per §5/§7
("tolerant parsing always produces some valid tree; never raises"). -/

/-- Does the character stream begin a tag (`<` followed by a letter, `/`,
or `!`)?  A `<` followed by anything else is text, per HTML tokenization. -/
def isTagOpen : List Char → Bool
  | c :: d :: _ =>
    c.toNat = 60 && (isLowerAlpha d || isUpperAlpha d || d.toNat = 47 || d.toNat = 33)
  | _ => false

/-- Longest text run: consume characters up to the next tag opening. -/
def textRun : List Char → List Char × List Char
  | [] => ([], [])
  | c :: rest =>
    if isTagOpen (c :: rest) then ([], c :: rest)
    else
      let t := textRun rest
      (c :: t.1, t.2)

/-- Characters permitted in attribute names (everything except whitespace,
`=`, `>`, `/`, quotes), per the HTML attribute-name state. -/
def isAttrNameChar (c : Char) : Bool :=
  !(isSpaceChar c || c.toNat = 61 || c.toNat = 62 || c.toNat = 47 ||
    c.toNat = 34 || c.toNat = 39)

/-- A character ending an unquoted attribute value. -/
def endsUnquoted (c : Char) : Bool := isSpaceChar c || c.toNat = 62

/-- Fuel-driven attribute parser: consumes up to the closing `>` of a start
tag, returning the parsed attributes and the remaining stream (`none` when
the input ended inside the tag, in which case the token is discarded). -/
def paGo : Nat → List Char → List (String × String) →
    List (String × String) × Option (List Char)
  | 0, _, acc => (acc.reverse, none)
  | _ + 1, [], acc => (acc.reverse, none)
  | fuel + 1, c :: r, acc =>
    if c.toNat = 62 then (acc.reverse, some r)
    else if isSpaceChar c || c.toNat = 47 || c.toNat = 61 || c.toNat = 34 ||
        c.toNat = 39 then
      paGo fuel r acc
    else
      let aname := String.mk (((c :: r).takeWhile isAttrNameChar).map asciiLower)
      let r2 := (c :: r).dropWhile isAttrNameChar
      match r2 with
      | '=' :: r3 =>
        match r3 with
        | '"' :: r4 =>
          let v := r4.takeWhile (fun d => decide (d.toNat ≠ 34))
          let r5 := r4.dropWhile (fun d => decide (d.toNat ≠ 34))
          match r5 with
          | _ :: r6 => paGo fuel r6 ((aname, String.mk (entityDecode v)) :: acc)
          | [] => (((aname, String.mk (entityDecode v)) :: acc).reverse, none)
        | c2 :: r4 =>
          if c2.toNat = 39 then
            let v := r4.takeWhile (fun d => decide (d.toNat ≠ 39))
            let r5 := r4.dropWhile (fun d => decide (d.toNat ≠ 39))
            match r5 with
            | _ :: r6 => paGo fuel r6 ((aname, String.mk (entityDecode v)) :: acc)
            | [] => (((aname, String.mk (entityDecode v)) :: acc).reverse, none)
          else
            let v := (c2 :: r4).takeWhile (fun d => !endsUnquoted d)
            paGo fuel ((c2 :: r4).dropWhile (fun d => !endsUnquoted d))
              ((aname, String.mk (entityDecode v)) :: acc)
        | [] => paGo fuel [] ((aname, String.mk (entityDecode [])) :: acc)
      | _ => paGo fuel r2 ((aname, "") :: acc)

/-- Attribute parser with sufficient fuel. -/
def parseAttrs (cs : List Char) : List (String × String) × Option (List Char) :=
  paGo cs.length cs []

/-- One tokenization step: from a non-empty stream, produce at most one token
and the rest of the stream. -/
def tokStep (cs : List Char) : Option Token × List Char :=
  match cs with
  | [] => (none, [])
  | c :: rest =>
    if isTagOpen (c :: rest) then
      match rest with
      | [] => (none, [])
      | d :: r2 =>
        if d.toNat = 47 then
          -- end tag (or bogus comment after `</`)
          let name := r2.takeWhile isNameChar
          if name = [] then
            match r2.dropWhile (fun e => decide (e.toNat ≠ 62)) with
            | _ :: r4 => (none, r4)
            | [] => (none, [])
          else
            match (r2.dropWhile isNameChar).dropWhile (fun e => decide (e.toNat ≠ 62)) with
            | _ :: r4 => (some (Token.endTag (String.mk (name.map asciiLower))), r4)
            | [] => (none, [])
        else if d.toNat = 33 then
          -- markup declaration / comment: skipped to `>`, emitted as Comment
          match r2.dropWhile (fun e => decide (e.toNat ≠ 62)) with
          | _ :: r4 => (some (Token.comment ""), r4)
          | [] => (none, [])
        else
          -- start tag
          let name := rest.takeWhile isNameChar
          let r3 := rest.dropWhile isNameChar
          match parseAttrs r3 with
          | (attrs, some r4) =>
            (some (Token.startTag (String.mk (name.map asciiLower)) attrs), r4)
          | (_, none) => (none, [])
    else
      let t := textRun (c :: rest)
      (some (Token.chars (String.mk (entityDecode t.1))), t.2)

/-- Fuel-driven tokenizer loop. -/
def tokGo : Nat → List Char → List Token
  | 0, _ => []
  | _ + 1, [] => []
  | fuel + 1, c :: rest =>
    match tokStep (c :: rest) with
    | (some t, r) => t :: tokGo fuel r
    | (none, r) => tokGo fuel r

/-- Modelled from the spec: the tolerant HTML tokenizer. -/
def tokenize (cs : List Char) : List Token := tokGo cs.length cs

/-! ## Sanitizing token filter (spec §4.1) -/

/-- Modelled from the spec (§4.1): `sanitize_token` of the html5lib sanitizer
mixin (not part of the repository), as the spec describes it: a disallowed
start/end tag is dropped entirely (its text content is preserved in place —
unwrap, don't delete); on an allowed start tag every attribute not in the
attribute allow-list is dropped, order preserved; Comment and Doctype tokens
are dropped.  The allow-lists are those installed by
`HTMLSanitizerMixin.__init__`. -/
def sanitizeToken (allowedElements allowedAttributes : List String) :
    Token → Option Token
  | Token.startTag n attrs =>
    if allowedElements.contains n then
      some (Token.startTag n (attrs.filter (fun p => allowedAttributes.contains p.1)))
    else none
  | Token.endTag n =>
    if allowedElements.contains n then some (Token.endTag n) else none
  | Token.chars s => some (Token.chars s)
  | Token.comment _ => none
  | Token.doctype => none

/-- The filtered token stream (`HTMLSanitizer.__iter__`: yield
`sanitize_token(token)` when it is truthy). -/
def filterTokens (ae aa : List String) (ts : List Token) : List Token :=
  ts.filterMap (sanitizeToken ae aa)

/-! ## Character-token normalization

The real pipeline parses the filtered token stream into a DOM and walks it
(`parseFragment` / `treewalkers`); adjacent character tokens end up in a
single text node and empty ones vanish.  Modelled from the spec (§4.2). -/

/-- Prepend a characters token unless it is empty. -/
def mkChars (s : String) (r : List Token) : List Token :=
  if s = "" then r else Token.chars s :: r

/-- Merge adjacent characters tokens and drop empty ones. -/
def mergeChars : List Token → List Token
  | [] => []
  | Token.chars s :: rest =>
    (match mergeChars rest with
     | Token.chars t :: r2 => mkChars (s ++ t) r2
     | r => mkChars s r)
  | t :: rest => t :: mergeChars rest

/-! ## `sanitize_html` (html.py lines 69–81) -/

/-- `sanitize_html`: parse the fragment with the sanitizing tokenizer and
re-serialize.  Token-level model of
`HTMLParser(tokenizer=HTMLSanitizer).parseFragment` followed by
`HTMLSerializer(omit_optional_tags=False, quote_attr_values=True)`. -/
def sanitize_html (html : String) : String :=
  String.mk (serTokens (mergeChars
    (filterTokens ALLOWED_HTML_ELEMENTS ALLOWED_HTML_ATTRIBUTES
      (tokenize html.data))))

/-! ## Canonical-form predicates used by the re-tokenization proof -/

/-- A character of a canonical (lower-cased) tag name. -/
def goodNameChar (c : Char) : Bool := isLowerAlpha c || isDigitChar c

/-- A canonical tag name: non-empty, starting with a lower-case letter,
made of lower-case letters and digits.  Every name in
`ALLOWED_HTML_ELEMENTS` is of this form. -/
def goodName (s : String) : Bool :=
  (match s.data with
   | [] => false
   | c :: _ => isLowerAlpha c) && s.data.all goodNameChar

/-- A canonical attribute name: non-empty, all lower-case letters.  Every
name in `ALLOWED_HTML_ATTRIBUTES` is of this form. -/
def goodAttrName (s : String) : Bool :=
  !s.data.isEmpty && s.data.all isLowerAlpha

/-- A token that re-tokenizes from its canonical serialization. -/
def goodToken : Token → Bool
  | Token.startTag n attrs => goodName n && attrs.all (fun p => goodAttrName p.1)
  | Token.endTag n => goodName n
  | Token.chars s => !s.data.isEmpty
  | Token.comment _ => false
  | Token.doctype => false

/-- No two adjacent characters tokens. -/
def okSeq : List Token → Bool
  | [] => true
  | Token.chars _ :: rest =>
    (match rest with
     | Token.chars _ :: _ => false
     | _ => true) && okSeq rest
  | _ :: rest => okSeq rest

/-- Is the token a characters token? -/
def isCharsTok : Token → Bool
  | Token.chars _ => true
  | _ => false

/-! ### Invariants of the filtered, merged token stream -/

/-- A token that passes the sanitizing filter unchanged. -/
def passedTok : Token → Bool
  | Token.startTag n attrs =>
    ALLOWED_HTML_ELEMENTS.contains n &&
      attrs.all (fun p => ALLOWED_HTML_ATTRIBUTES.contains p.1)
  | Token.endTag n => ALLOWED_HTML_ELEMENTS.contains n
  | Token.chars _ => true
  | Token.comment _ => false
  | Token.doctype => false

/-! ## Claim support: text content and allow-list membership of tokens -/

/-- Concatenated character data of a token stream. -/
def tokensText : List Token → List Char
  | [] => []
  | Token.chars s :: rest => s.data ++ tokensText rest
  | _ :: rest => tokensText rest

/-- The allow-list property claimed of every token in sanitized output:
tag names are allowed (in particular never `script`), attribute names are
allowed (in particular never `style` or an `on*` event handler), and no
comment/doctype markup remains. -/
def tokenAllowed : Token → Bool
  | Token.startTag n attrs =>
    ALLOWED_HTML_ELEMENTS.contains n && n != "script" &&
      attrs.all (fun p => ALLOWED_HTML_ATTRIBUTES.contains p.1 &&
        !(List.isPrefixOf "on".data p.1.data) && p.1 != "style")
  | Token.endTag n => ALLOWED_HTML_ELEMENTS.contains n && n != "script"
  | Token.chars _ => true
  | Token.comment _ => false
  | Token.doctype => false

/-! ## DOM tree model

Modelled from the spec (§3): the in-memory node tree built by the tolerant
parser (`BeautifulSoup(html, 'html5lib')`, not part of the repository) for
the content of `<body>`. -/

/-- A DOM node: an element with tag name, attributes and children, or a
text node. -/
inductive HNode where
  | elem (name : String) (attrs : List (String × String)) (children : List HNode)
  | text (s : String)
deriving Repr

/-- Void elements (never hold children), per the HTML standard used by the
tolerant tree builder. -/
def voidElems : List String :=
  ["area", "base", "br", "col", "embed", "hr", "img", "input", "link",
   "meta", "param", "source", "track", "wbr"]

/-- Close every still-open frame at end of input (tolerant recovery). -/
def unwindFrames :
    List ((String × List (String × String)) × List HNode) → List HNode → List HNode
  | [], acc => acc.reverse
  | (tag, pacc) :: fs, acc =>
    unwindFrames fs (HNode.elem tag.1 tag.2 acc.reverse :: pacc)

/-- Pop frames until (and including) the first one matching `n`. -/
def closeOne (n : String) :
    List ((String × List (String × String)) × List HNode) → List HNode →
      List ((String × List (String × String)) × List HNode) × List HNode
  | [], acc => ([], acc)
  | (tag, pacc) :: fs, acc =>
    let node := HNode.elem tag.1 tag.2 acc.reverse
    if tag.1 = n then (fs, node :: pacc)
    else closeOne n fs (node :: pacc)

/-- Modelled from the spec: fuel-driven tolerant tree construction from the
token stream (stack of open elements; stray end tags ignored; unclosed
elements closed at end of input). -/
def buildGo : Nat → List Token →
    List ((String × List (String × String)) × List HNode) → List HNode → List HNode
  | 0, _, stack, acc => unwindFrames stack acc
  | _ + 1, [], stack, acc => unwindFrames stack acc
  | fuel + 1, tok :: rest, stack, acc =>
    match tok with
    | Token.chars s => buildGo fuel rest stack (HNode.text s :: acc)
    | Token.startTag n a =>
      if voidElems.contains n then buildGo fuel rest stack (HNode.elem n a [] :: acc)
      else buildGo fuel rest ((⟨n, a⟩, acc) :: stack) []
    | Token.endTag n =>
      if stack.any (fun fr => fr.1.1 == n) then
        let p := closeOne n stack acc
        buildGo fuel rest p.1 p.2
      else buildGo fuel rest stack acc
    | _ => buildGo fuel rest stack acc

/-- The children of `<body>` after tolerantly parsing a fragment
(`BeautifulSoup(html, 'html5lib').find('body').contents`). -/
def parseBody (s : String) : List HNode :=
  let ts := tokenize s.data
  buildGo ts.length ts [] []

/-- Fuel-driven rendering of one node (`renderContents` of bs4: text
escaped, attributes double-quoted, end tags explicit, void elements
self-closed). -/
def renderNode : Nat → HNode → List Char
  | 0, _ => []
  | _ + 1, HNode.text s => escapeText s.data
  | fuel + 1, HNode.elem n a cs =>
    if voidElems.contains n then '<' :: n.data ++ serAttrs a ++ ['/', '>']
    else
      '<' :: n.data ++ serAttrs a ++ '>' ::
        ((cs.map (renderNode fuel)).flatten ++ ('<' :: '/' :: n.data ++ ['>']))

/-- Rendering of a node list. -/
def renderList (fuel : Nat) (ns : List HNode) : List Char :=
  (ns.map (renderNode fuel)).flatten

/-- Python `str.strip()` (ASCII whitespace model). -/
def isPySpace (c : Char) : Bool :=
  c.toNat = 32 || c.toNat = 9 || c.toNat = 10 || c.toNat = 13 ||
    c.toNat = 11 || c.toNat = 12

/-- Python `s.strip()`. -/
def pyStrip (s : String) : String :=
  String.mk (((s.data.dropWhile isPySpace).reverse.dropWhile isPySpace).reverse)

/-! ## `strip_tags` (html.py lines 225–238) -/

/-- Remove every element whose tag name is in `tags`, together with its
whole subtree (bs4 `v.replaceWith('')` on each match of `soup.find_all(tag)`). -/
def removeTags : Nat → List String → HNode → List HNode
  | 0, _, x => [x]
  | _ + 1, _, HNode.text s => [HNode.text s]
  | fuel + 1, tags, HNode.elem n a cs =>
    if tags.contains n then []
    else [HNode.elem n a ((cs.map (removeTags fuel tags)).flatten)]

/-- The body of `strip_tags` before the `@sanitized` decorator: blank input
is returned unchanged; calling without `tags` fails the `assert`; otherwise
every matching node is replaced with `''` and the body re-rendered. -/
def strip_tags_inner (html : String) (tags : Option (List String)) :
    Except String String :=
  if pyStrip html = "" then Except.ok html
  else
    match tags with
    | none => Except.error "AssertionError"
    | some ts =>
      let fuel := html.data.length + 1
      let body := parseBody html
      Except.ok (String.mk (renderList fuel
        ((body.map (removeTags fuel ts)).flatten)))

/-- `strip_tags`, including the `@sanitized` decorator
(`sanitize_html(strip_tags(...))`).  An `AssertionError` propagates. -/
def strip_tags (html : String) (tags : Option (List String)) :
    Except String String :=
  (strip_tags_inner html tags).map sanitize_html

/-! ## `moderate_tags` (html.py lines 259–286) -/

/-- Does a tag named `n` occur in the subtree? (`soup.find_all(n) != []`). -/
def hasTag : Nat → String → HNode → Bool
  | 0, _, _ => false
  | _ + 1, _, HNode.text _ => false
  | fuel + 1, n, HNode.elem m _ cs => m == n || cs.any (hasTag fuel n)

/-- Replace every element named `n` with the placeholder node
(bs4 `v.replaceWith(aviso)` over `soup.find_all(n)`). -/
def replaceTag : Nat → String → HNode → HNode → HNode
  | 0, _, _, x => x
  | _ + 1, _, _, HNode.text s => HNode.text s
  | fuel + 1, n, ph, HNode.elem m a cs =>
    if m == n then ph else HNode.elem m a (cs.map (replaceTag fuel n ph))

/-- `moderate_tags`: replaces `<a>` / `<img>` with a rendered "pending
moderation" placeholder when the corresponding external flag is set; when no
replacement occurred the inner function returns its input, and the
`@sanitized` decorator sanitizes whatever is returned.  `mLinks` / `mImages`
model the external `settings.MODERATE_LINKS` / `settings.MODERATE_IMAGES`,
and `ph` the parsed placeholder template (external template renderer). -/
def moderate_tags (mLinks mImages : Bool) (ph : HNode) (html : String) : String :=
  let fuel := html.data.length + 1
  let body := parseBody html
  let p1 :=
    if mLinks && body.any (hasTag fuel "a") then
      (body.map (replaceTag fuel "a" ph), true)
    else (body, false)
  let p2 :=
    if mImages && p1.1.any (hasTag fuel "img") then
      (p1.1.map (replaceTag fuel "img" ph), true)
    else (p1.1, false)
  if p1.2 || p2.2 then sanitize_html (String.mk (renderList fuel p2.1))
  else sanitize_html html

/-! ## `urlize_html` (html.py lines 123–167) -/

/-- Fuel-driven split of text into alternating runs of whitespace and
non-whitespace (Django's `word_split_re` behaviour on plain text). -/
def splitWS : Nat → List Char → List (List Char)
  | 0, _ => []
  | _ + 1, [] => []
  | fuel + 1, c :: rest =>
    let p := isPySpace c
    (c :: rest.takeWhile (fun d => isPySpace d = p)) ::
      splitWS fuel (rest.dropWhile (fun d => isPySpace d = p))

/-- A word Django's URL detector recognizes as a bare URL.  Modelled from
the spec (§4.4, "detects http(s)://... per standard URL-in-text
heuristics"); Django's `urlize` is an external collaborator. -/
def isHttpWord (w : List Char) : Bool :=
  List.isPrefixOf "http://".data w || List.isPrefixOf "https://".data w

/-- Display-text truncation (`trim_url_limit`): a URL longer than the limit
is cut and elided with an ellipsis; the full URL stays in `href`. -/
def trimURL (limit : Nat) (w : List Char) : List Char :=
  if limit < w.length then w.take (limit - 1) ++ ['…'] else w

/-- Modelled from the spec: Django's `urlize(text, trim_url_limit)` on one
text node — wrap each detected bare URL in an anchor whose `href` is the
full URL, leaving all other words and the whitespace between them
unchanged. -/
def urlizeText (limit : Nat) (s : String) : String :=
  String.mk (((splitWS s.data.length s.data).map (fun w =>
    if isHttpWord w then
      "<a href=\"".data ++ w ++ '"' :: '>' :: trimURL limit w ++ "</a>".data
    else w)).flatten)

/-- Splicing the urlized fragment in place of the original text node: each
plain-string child of the fragment body is sandwiched between single
spaces (`soup.new_string(' ')` insertions), element children are inserted
as they are. -/
def spliceFragment (u : String) : List HNode :=
  ((parseBody u).map (fun child =>
    match child with
    | HNode.text t => [HNode.text " ", HNode.text t, HNode.text " "]
    | e => [e])).flatten

/-- One pass of the auto-linker over a node.  `inSkip` records whether some
ancestor tag name lies in the skip set `{a, img, pre, code}`
(`set(parent_tags) & set(skip_tags)` in the source): text below such an
ancestor is never touched.  A text node whose urlized form equals itself is
also left untouched; otherwise it is replaced by the spliced fragment. -/
def urlNode (limit : Nat) : Nat → Bool → HNode → List HNode
  | 0, _, x => [x]
  | _ + 1, inSkip, HNode.text s =>
    if inSkip then [HNode.text s]
    else
      let u := urlizeText limit s
      if u = s then [HNode.text s] else spliceFragment u
  | fuel + 1, inSkip, HNode.elem n a cs =>
    [HNode.elem n a
      ((cs.map (urlNode limit fuel (inSkip || (["a", "img", "pre", "code"] :
        List String).contains n))).flatten)]

/-- `urlize_html(html, trim_url_limit=40)`: parse, urlize every text node
outside the skip contexts, re-render the body, restore a trailing newline
if the source had one, and (by the `@sanitized` decorator) sanitize the
result. -/
def urlize_html (limit : Nat) (html : String) : String :=
  let fuel := 40 * html.data.length + 100
  let body := parseBody html
  let out0 := String.mk (renderList fuel
    ((body.map (urlNode limit fuel false)).flatten))
  let out :=
    if html.data.getLast? = some '\n' ∧ out0.data.getLast? ≠ some '\n' then
      out0 ++ "\n"
    else out0
  sanitize_html out

/-! ## `absolutize_urls` (html.py lines 91–107)

A direct embedding of the four case-insensitive regular expressions
`(?P<prefix><img[^<]+src=)"(?P<url>/[^"]+)"` (and the single-quoted and
`<a ... href=` variants) with Python `re.sub` semantics: leftmost,
non-overlapping matches, greedy `[^<]+` with backtracking, and the final
global `str.replace` collapsing `base_url//` to `base_url/`. -/

/-- Case-insensitive match of a (lower-case) literal; returns the rest of
the stream on success. -/
def matchCI : List Char → List Char → Option (List Char)
  | [], cs => some cs
  | _ :: _, [] => none
  | p :: ps, c :: cs => if asciiLower c = p then matchCI ps cs else none

/-- Match `attr` (e.g. `src=`), the quote, `/`, a non-empty run of
non-quote characters, and the closing quote; returns `(url, rest)`. -/
def matchTail (attr : List Char) (q : Char) (cs : List Char) :
    Option (List Char × List Char) :=
  match matchCI attr cs with
  | none => none
  | some r1 =>
    match r1 with
    | c :: r2 =>
      if c = q then
        match r2 with
        | '/' :: r3 =>
          let v := r3.takeWhile (fun d => !(d == q))
          let r4 := r3.dropWhile (fun d => !(d == q))
          if v.isEmpty then none
          else
            match r4 with
            | _ :: r5 => some ('/' :: v, r5)
            | [] => none
        | _ => none
      else none
    | [] => none

/-- Greedy backtracking for `[^<]+`: try the longest chunk first (Python
regex greedy semantics), requiring at least one character. -/
def tryChunk (attr : List Char) (q : Char) (run rest : List Char) :
    Nat → Option (Nat × List Char × List Char)
  | 0 => none
  | k + 1 =>
    match matchTail attr q (run.drop (k + 1) ++ rest) with
    | some (url, r) => some (k + 1, url, r)
    | none => tryChunk attr q run rest k

/-- Try the whole pattern at the head of `cs`; on success returns the
matched `prefix` group text (verbatim, case preserved), the `url` group and
the rest of the stream after the closing quote. -/
def matchAt (tag attr : List Char) (q : Char) (cs : List Char) :
    Option (List Char × List Char × List Char) :=
  match matchCI tag cs with
  | none => none
  | some r1 =>
    let run := r1.takeWhile (fun d => !(d == '<'))
    let rest := r1.dropWhile (fun d => !(d == '<'))
    match tryChunk attr q run rest run.length with
    | some (k, url, r) =>
      some (cs.take (tag.length + k + attr.length), url, r)
    | none => none

/-- The replacement emitted for one match: the prefix group verbatim, then
the rewritten URL enclosed in double quotes (`'\\g<prefix>"%s\\g<url>"'`) —
double quotes regardless of which quote style was matched. -/
def replTemplate (mid pre url : List Char) : List Char :=
  pre ++ '"' :: (mid ++ url) ++ ['"']

/-- One `re.sub` pass: scan left to right, replace each non-overlapping
match, continue after it. -/
def reSubPass (tag attr : List Char) (q : Char) (mid : List Char) :
    Nat → List Char → List Char
  | 0, _ => []
  | _ + 1, [] => []
  | fuel + 1, c :: cs =>
    match matchAt tag attr q (c :: cs) with
    | some (pre, url, rest) =>
      replTemplate mid pre url ++ reSubPass tag attr q mid fuel rest
    | none => c :: reSubPass tag attr q mid fuel cs

/-- Python `str.replace` (all non-overlapping occurrences, left to right). -/
def strReplace : Nat → List Char → List Char → List Char → List Char
  | 0, _, _, _ => []
  | _ + 1, [], _, _ => []
  | fuel + 1, c :: cs, pat, rep =>
    if pat.isPrefixOf (c :: cs) ∧ pat ≠ [] then
      rep ++ strReplace fuel ((c :: cs).drop pat.length) pat rep
    else c :: strReplace fuel cs pat rep

/-- `absolutize_urls(html)`: the four regex passes in source order, then the
global doubled-slash collapse
(`.replace('%s//' % base_url, '%s/' % base_url)`).  `base_url` models
`site_url('')` — the scheme and host of the external `APP_URL` setting,
without a trailing slash. -/
def absolutize_urls (base_url : String) (html : String) : String :=
  let h1 := reSubPass "<img".data "src=".data '"' (base_url.data ++ ['/'])
    (html.data.length + 1) html.data
  let h2 := reSubPass "<img".data "src=".data (Char.ofNat 39) (base_url.data ++ ['/'])
    (h1.length + 1) h1
  let h3 := reSubPass "<a".data "href=".data '"' base_url.data
    (h2.length + 1) h2
  let h4 := reSubPass "<a".data "href=".data (Char.ofNat 39) base_url.data
    (h3.length + 1) h3
  String.mk (strReplace (h4.length + 1) h4 (base_url.data ++ ['/', '/'])
    (base_url.data ++ ['/']))

/-! ## `format_url_replacement` (html.py lines 114–120) -/

/-- A character allowed in a URL scheme (`urlparse` scheme characters). -/
def isSchemeChar (c : Char) : Bool :=
  isLowerAlpha c || isUpperAlpha c || isDigitChar c ||
    c.toNat = 43 || c.toNat = 45 || c.toNat = 46

/-- Strip a valid `scheme:` prefix, as Python `urlparse` does. -/
def splitScheme (cs : List Char) : List Char :=
  let pre := cs.takeWhile (fun d => !(d == ':'))
  match cs.dropWhile (fun d => !(d == ':')), pre with
  | _ :: rest, c :: _ =>
    if (isLowerAlpha c || isUpperAlpha c) && pre.all isSchemeChar then rest
    else cs
  | _, _ => cs

/-- `urlparse(url).netloc`: the authority after `//`, up to the next
`/`, `?` or `#`; empty when the URL has no `//` authority part. -/
def netloc (url : String) : String :=
  match splitScheme url.data with
  | '/' :: '/' :: rest =>
    String.mk (rest.takeWhile (fun d => !(d == '/' || d == '?' || d == '#')))
  | _ => ""

/-- `format_url_replacement(url, text)`, translated from the source. -/
def format_url_replacement (url text : String) : String :=
  let url := pyStrip url
  let text := pyStrip text
  let url_domain := netloc url
  if url ≠ "" ∧ text ≠ "" ∧ url_domain ≠ text ∧ url ≠ text then
    url ++ " (" ++ text ++ ")"
  else if url ≠ "" then url
  else if text ≠ "" then text
  else ""

/-- Definition following the spec's words (§4.5, format rule): "trim both;
if both non-empty and distinct from each other and from the URL's host
component, produce `"url (text)"`; otherwise produce whichever of url/text
is non-empty, or empty string if both are empty." -/
def formatRuleSpec (url text : String) : String :=
  let u := pyStrip url
  let t := pyStrip text
  if u ≠ "" ∧ t ≠ "" ∧ t ≠ u ∧ t ≠ netloc u then u ++ " (" ++ t ++ ")"
  else if u ≠ "" then u
  else if t ≠ "" then t
  else ""

/-! ## Theorems -/

theorem char_toNat_inj {c d : Char} (h : c.toNat = d.toNat) : c = d :=
  Char.eq_of_val_eq (UInt32.ext h)

theorem char_ne_of_toNat_ne {c d : Char} (h : c.toNat ≠ d.toNat) : c ≠ d :=
  fun he => h (congrArg Char.toNat he)

theorem asciiLower_eq_self {c : Char} (h : ¬(65 ≤ c.toNat ∧ c.toNat ≤ 90)) :
    asciiLower c = c := by
  simp [asciiLower, h]

theorem entityDecode_cons_ne (c : Char) (rest : List Char) (h : c ≠ '&') :
    entityDecode (c :: rest) = c :: entityDecode rest := by
  conv_lhs => rw [entityDecode.eq_def]
  simp only [if_neg h]

theorem entityDecode_amp (rest : List Char) :
    entityDecode ('&' :: 'a' :: 'm' :: 'p' :: ';' :: rest) = '&' :: entityDecode rest := rfl

theorem entityDecode_lt (rest : List Char) :
    entityDecode ('&' :: 'l' :: 't' :: ';' :: rest) = '<' :: entityDecode rest := rfl

theorem entityDecode_gt (rest : List Char) :
    entityDecode ('&' :: 'g' :: 't' :: ';' :: rest) = '>' :: entityDecode rest := rfl

theorem entityDecode_quot (rest : List Char) :
    entityDecode ('&' :: 'q' :: 'u' :: 'o' :: 't' :: ';' :: rest) = '"' :: entityDecode rest := rfl

theorem escTextChar_no_lt (c : Char) : ∀ d ∈ escTextChar c, d.toNat ≠ 60 := by
  unfold escTextChar
  split
  · decide
  · split
    · decide
    · split
      · decide
      · rename_i h1 h2 h3
        intro d hd
        simp only [List.mem_singleton] at hd
        subst hd; exact h2

theorem escapeText_no_lt (cs : List Char) : ∀ d ∈ escapeText cs, d.toNat ≠ 60 := by
  induction cs with
  | nil => intro d hd; cases hd
  | cons c cs ih =>
    intro d hd
    simp only [escapeText, List.foldr_cons] at hd
    rcases List.mem_append.mp hd with h | h
    · exact escTextChar_no_lt c d h
    · exact ih d h

theorem escAttrChar_no_quot (c : Char) : ∀ d ∈ escAttrChar c, d.toNat ≠ 34 := by
  unfold escAttrChar
  split
  · decide
  · split
    · decide
    · rename_i h1 h2
      intro d hd
      simp only [List.mem_singleton] at hd
      subst hd; exact h2

theorem escapeAttr_no_quot (cs : List Char) : ∀ d ∈ escapeAttr cs, d.toNat ≠ 34 := by
  induction cs with
  | nil => intro d hd; cases hd
  | cons c cs ih =>
    intro d hd
    simp only [escapeAttr, List.foldr_cons] at hd
    rcases List.mem_append.mp hd with h | h
    · exact escAttrChar_no_quot c d h
    · exact ih d h

theorem entityDecode_escapeText (cs : List Char) :
    entityDecode (escapeText cs) = cs := by
  induction cs with
  | nil => rfl
  | cons c cs ih =>
    show entityDecode (escTextChar c ++ escapeText cs) = c :: cs
    unfold escTextChar
    split
    · rename_i h
      have hc : c = '&' := char_toNat_inj h
      subst hc
      simpa [entityDecode_amp] using ih
    · split
      · rename_i h
        have hc : c = '<' := char_toNat_inj h
        subst hc
        simpa [entityDecode_lt] using ih
      · split
        · rename_i h
          have hc : c = '>' := char_toNat_inj h
          subst hc
          simpa [entityDecode_gt] using ih
        · rename_i h1 h2 h3
          have hne : c ≠ '&' := char_ne_of_toNat_ne h1
          simp only [List.singleton_append]
          rw [entityDecode_cons_ne c _ hne, ih]

theorem entityDecode_escapeAttr (cs : List Char) :
    entityDecode (escapeAttr cs) = cs := by
  induction cs with
  | nil => rfl
  | cons c cs ih =>
    show entityDecode (escAttrChar c ++ escapeAttr cs) = c :: cs
    unfold escAttrChar
    split
    · rename_i h
      have hc : c = '&' := char_toNat_inj h
      subst hc
      simpa [entityDecode_amp] using ih
    · rename_i h
      split
      · rename_i h
        have hc : c = '"' := char_toNat_inj h
        subst hc
        simpa [entityDecode_quot] using ih
      · have hne : c ≠ '&' := char_ne_of_toNat_ne h
        simp only [List.singleton_append]
        rw [entityDecode_cons_ne c _ hne, ih]

/-! ### Character-class facts -/

theorem goodNameChar_ranges {c : Char} (h : goodNameChar c = true) :
    (97 ≤ c.toNat ∧ c.toNat ≤ 122) ∨ (48 ≤ c.toNat ∧ c.toNat ≤ 57) := by
  simp only [goodNameChar, isLowerAlpha, isDigitChar, Bool.or_eq_true,
    decide_eq_true_eq] at h
  exact h

theorem lowerAlpha_range {c : Char} (h : isLowerAlpha c = true) :
    97 ≤ c.toNat ∧ c.toNat ≤ 122 := by
  simp only [isLowerAlpha, decide_eq_true_eq] at h
  exact h

theorem goodNameChar_isNameChar {c : Char} (h : goodNameChar c = true) :
    isNameChar c = true := by
  rcases goodNameChar_ranges h with h' | h' <;>
    simp [isNameChar, isLowerAlpha, isUpperAlpha, isDigitChar] <;> omega

theorem goodNameChar_asciiLower {c : Char} (h : goodNameChar c = true) :
    asciiLower c = c := by
  rcases goodNameChar_ranges h with h' | h' <;>
  · apply asciiLower_eq_self
    omega

theorem goodNameChar_isAttrNameChar {c : Char} (h : goodNameChar c = true) :
    isAttrNameChar c = true := by
  rcases goodNameChar_ranges h with h' | h' <;>
  · simp [isAttrNameChar, isSpaceChar]
    omega

theorem lowerAlpha_goodNameChar {c : Char} (h : isLowerAlpha c = true) :
    goodNameChar c = true := by
  simp [goodNameChar, h]

theorem goodNameChar_ne60 {c : Char} (h : goodNameChar c = true) : c.toNat ≠ 60 := by
  rcases goodNameChar_ranges h with h' | h' <;> omega

theorem not_isNameChar_62 : isNameChar '>' = false := by decide

theorem not_isNameChar_32 : isNameChar ' ' = false := by decide

/-! ### takeWhile / dropWhile over a fully-satisfying prefix -/

theorem takeWhile_append_all {p : Char → Bool} :
    ∀ {l m : List Char}, (∀ c ∈ l, p c = true) →
      (l ++ m).takeWhile p = l ++ m.takeWhile p
  | [], m, _ => rfl
  | c :: l, m, h => by
    have hc : p c = true := h c (List.mem_cons_self c l)
    simp only [List.cons_append, List.takeWhile_cons, hc, if_true]
    rw [takeWhile_append_all (fun d hd => h d (List.mem_cons_of_mem c hd))]

theorem dropWhile_append_all {p : Char → Bool} :
    ∀ {l m : List Char}, (∀ c ∈ l, p c = true) →
      (l ++ m).dropWhile p = m.dropWhile p
  | [], m, _ => rfl
  | c :: l, m, h => by
    have hc : p c = true := h c (List.mem_cons_self c l)
    simp only [List.cons_append, List.dropWhile_cons, hc, if_true]
    rw [dropWhile_append_all (fun d hd => h d (List.mem_cons_of_mem c hd))]

theorem takeWhile_cons_false {p : Char → Bool} {c : Char} (m : List Char)
    (h : p c = false) : (c :: m).takeWhile p = [] := by
  simp [List.takeWhile_cons, h]

theorem dropWhile_cons_false {p : Char → Bool} {c : Char} (m : List Char)
    (h : p c = false) : (c :: m).dropWhile p = c :: m := by
  simp [List.dropWhile_cons, h]

theorem string_mk_data (s : String) : String.mk s.data = s := by cases s; rfl

theorem map_asciiLower_good {l : List Char} (h : ∀ c ∈ l, goodNameChar c = true) :
    l.map asciiLower = l := by
  induction l with
  | nil => rfl
  | cons c l ih =>
    rw [List.map_cons, goodNameChar_asciiLower (h c (List.mem_cons_self c l)),
      ih (fun d hd => h d (List.mem_cons_of_mem c hd))]

/-! ### Re-tokenizing a canonically serialized attribute list -/

theorem goodAttrName_spec {s : String} (h : goodAttrName s = true) :
    s.data ≠ [] ∧ ∀ d ∈ s.data, isLowerAlpha d = true := by
  simp only [goodAttrName, Bool.and_eq_true, Bool.not_eq_true', List.isEmpty_eq_false,
    List.all_eq_true] at h
  obtain ⟨h1, h2⟩ := h
  exact ⟨by simpa [List.isEmpty_iff] using h1, h2⟩

theorem goodName_spec {s : String} (h : goodName s = true) :
    (∃ c tl, s.data = c :: tl ∧ isLowerAlpha c = true) ∧
      ∀ d ∈ s.data, goodNameChar d = true := by
  simp only [goodName, Bool.and_eq_true, List.all_eq_true] at h
  obtain ⟨h1, h2⟩ := h
  refine ⟨?_, h2⟩
  cases hd : s.data with
  | nil => rw [hd] at h1; cases h1
  | cons c tl => rw [hd] at h1; exact ⟨c, tl, rfl, h1⟩

theorem serAttr_shape (a v : String) (tail : List Char) :
    serAttr (a, v) ++ tail =
      ' ' :: (a.data ++ '=' :: '"' :: (escapeAttr v.data ++ '"' :: tail)) := by
  simp [serAttr, List.append_assoc]

theorem paGo_attr_step (F : Nat) (a v : String) (tail : List Char)
    (acc : List (String × String)) (ha : goodAttrName a = true) :
    paGo (F + 2) (serAttr (a, v) ++ tail) acc = paGo F tail ((a, v) :: acc) := by
  obtain ⟨hne, hchars⟩ := goodAttrName_spec ha
  rw [serAttr_shape]
  -- step 1: skip the leading space
  rw [show paGo (F + 2) (' ' :: (a.data ++ '=' :: '"' ::
      (escapeAttr v.data ++ '"' :: tail))) acc =
    paGo (F + 1) (a.data ++ '=' :: '"' :: (escapeAttr v.data ++ '"' :: tail)) acc by
      simp [paGo, isSpaceChar]]
  -- step 2: the attribute itself
  obtain ⟨c, atl, hdata⟩ : ∃ c atl, a.data = c :: atl := by
    cases hd : a.data with
    | nil => exact absurd hd hne
    | cons c atl => exact ⟨c, atl, rfl⟩
  have hcl : isLowerAlpha c = true := hchars c (by rw [hdata]; exact List.mem_cons_self ..)
  have hcrange := lowerAlpha_range hcl
  have hanc : ∀ d ∈ a.data, isAttrNameChar d = true := fun d hd =>
    goodNameChar_isAttrNameChar (lowerAlpha_goodNameChar (hchars d hd))
  have htake : (a.data ++ '=' :: '"' :: (escapeAttr v.data ++ '"' :: tail)).takeWhile
      isAttrNameChar = a.data := by
    rw [takeWhile_append_all hanc, takeWhile_cons_false _ (by decide), List.append_nil]
  have hdrop : (a.data ++ '=' :: '"' :: (escapeAttr v.data ++ '"' :: tail)).dropWhile
      isAttrNameChar = '=' :: '"' :: (escapeAttr v.data ++ '"' :: tail) := by
    rw [dropWhile_append_all hanc, dropWhile_cons_false _ (by decide)]
  have hvq : ∀ d ∈ escapeAttr v.data, (fun d => decide (d.toNat ≠ 34)) d = true :=
    fun d hd => decide_eq_true (escapeAttr_no_quot v.data d hd)
  have hvtake : (escapeAttr v.data ++ '"' :: tail).takeWhile
      (fun d => decide (d.toNat ≠ 34)) = escapeAttr v.data := by
    rw [takeWhile_append_all hvq, takeWhile_cons_false _ (by decide), List.append_nil]
  have hvdrop : (escapeAttr v.data ++ '"' :: tail).dropWhile
      (fun d => decide (d.toNat ≠ 34)) = '"' :: tail := by
    rw [dropWhile_append_all hvq, dropWhile_cons_false _ (by decide)]
  conv_lhs => rw [hdata, List.cons_append]
  have hc62 : ¬ c.toNat = 62 := by omega
  have hskip : ¬ (isSpaceChar c || c.toNat = 47 || c.toNat = 61 || c.toNat = 34 ||
      c.toNat = 39) = true := by
    simp [isSpaceChar]
    omega
  rw [paGo, if_neg hc62, if_neg hskip]
  have hcons : c :: (atl ++ '=' :: '"' :: (escapeAttr v.data ++ '"' :: tail)) =
      a.data ++ '=' :: '"' :: (escapeAttr v.data ++ '"' :: tail) := by
    rw [hdata]; rfl
  rw [hcons, htake, hdrop]
  simp only []
  rw [hvtake, hvdrop]
  simp only [map_asciiLower_good (fun d hd => lowerAlpha_goodNameChar (hchars d hd)),
    string_mk_data, entityDecode_escapeAttr, string_mk_data]

theorem serAttr_length (a v : String) :
    (serAttr (a, v)).length = 4 + a.data.length + (escapeAttr v.data).length := by
  simp [serAttr]
  omega

theorem paGo_serAttrs :
    ∀ (attrs : List (String × String)) (F : Nat) (acc : List (String × String))
      (r : List Char),
      (∀ p ∈ attrs, goodAttrName p.1 = true) →
      (serAttrs attrs ++ '>' :: r).length ≤ F →
      paGo F (serAttrs attrs ++ '>' :: r) acc = (acc.reverse ++ attrs, some r)
  | [], F, acc, r, _, hF => by
    have h1 : serAttrs [] = [] := rfl
    rw [h1, List.nil_append] at hF ⊢
    obtain ⟨F', rfl⟩ : ∃ F', F = F' + 1 := by
      refine ⟨F - 1, ?_⟩
      simp at hF
      omega
    rw [paGo, if_pos (by decide)]
    simp
  | (a, v) :: tl, F, acc, r, hgood, hF => by
    have h1 : serAttrs ((a, v) :: tl) = serAttr (a, v) ++ serAttrs tl := rfl
    rw [h1, List.append_assoc] at hF ⊢
    have hne : a.data ≠ [] := (goodAttrName_spec (hgood (a, v) (List.mem_cons_self ..))).1
    have hlen : 4 ≤ (serAttr (a, v)).length := by
      rw [serAttr_length]
      omega
    have hrest : (serAttrs tl ++ '>' :: r).length + 4 ≤ F := by
      rw [List.length_append] at hF
      omega
    obtain ⟨F', rfl⟩ : ∃ F', F = F' + 2 := ⟨F - 2, by omega⟩
    rw [paGo_attr_step F' a v _ acc (hgood (a, v) (List.mem_cons_self ..))]
    rw [paGo_serAttrs tl F' ((a, v) :: acc) r
      (fun p hp => hgood p (List.mem_cons_of_mem _ hp)) (by omega)]
    simp

/-! ### Re-tokenizing one canonically serialized token -/

theorem isTagOpen_false_of_ne60 {c : Char} (cs : List Char) (h : c.toNat ≠ 60) :
    isTagOpen (c :: cs) = false := by
  cases cs with
  | nil => rfl
  | cons d cs' =>
    simp [isTagOpen]
    intro hc
    exact absurd hc h

theorem textRun_cons_false {c : Char} {cs : List Char} (h : isTagOpen (c :: cs) = false) :
    textRun (c :: cs) = (c :: (textRun cs).1, (textRun cs).2) := by
  simp [textRun, h]

theorem textRun_cons_true {c : Char} {cs : List Char} (h : isTagOpen (c :: cs) = true) :
    textRun (c :: cs) = ([], c :: cs) := by
  simp [textRun, h]

theorem textRun_append {l r : List Char} (hl : ∀ c ∈ l, c.toNat ≠ 60)
    (hr : r = [] ∨ isTagOpen r = true) : textRun (l ++ r) = (l, r) := by
  induction l with
  | nil =>
    rcases hr with rfl | hr
    · rfl
    · cases r with
      | nil => rfl
      | cons c rest =>
        rw [List.nil_append, textRun_cons_true hr]
  | cons c l ih =>
    have hc : c.toNat ≠ 60 := hl c (List.mem_cons_self ..)
    have hto : isTagOpen (c :: (l ++ r)) = false := isTagOpen_false_of_ne60 _ hc
    rw [List.cons_append, textRun_cons_false hto,
      ih (fun d hd => hl d (List.mem_cons_of_mem c hd))]

theorem escTextChar_ne_nil (c : Char) : escTextChar c ≠ [] := by
  unfold escTextChar
  split
  · simp
  · split
    · simp
    · split
      · simp
      · simp

theorem tokStep_chars (s : String) (r : List Char) (hs : s.data ≠ [])
    (hr : r = [] ∨ isTagOpen r = true) :
    tokStep (escapeText s.data ++ r) = (some (Token.chars s), r) := by
  obtain ⟨e, etl, he⟩ : ∃ e etl, escapeText s.data = e :: etl := by
    cases hd : escapeText s.data with
    | nil =>
      obtain ⟨c, tl, hc⟩ : ∃ c tl, s.data = c :: tl := by
        cases h2 : s.data with
        | nil => exact absurd h2 hs
        | cons c tl => exact ⟨c, tl, rfl⟩
      rw [hc] at hd
      have : escTextChar c ++ escapeText tl = [] := hd
      exact absurd (List.append_eq_nil.mp this).1 (escTextChar_ne_nil c)
    | cons e etl => exact ⟨e, etl, rfl⟩
  have he60 : e.toNat ≠ 60 := escapeText_no_lt s.data e (he ▸ List.mem_cons_self ..)
  have hopen : isTagOpen (e :: (etl ++ r)) = false := isTagOpen_false_of_ne60 _ he60
  have hrun : textRun (escapeText s.data ++ r) = (escapeText s.data, r) :=
    textRun_append (escapeText_no_lt s.data) hr
  rw [he, List.cons_append, tokStep.eq_def]
  simp only [hopen, Bool.false_eq_true, if_false]
  rw [← List.cons_append, ← he, hrun]
  simp [entityDecode_escapeText, string_mk_data]

theorem tokStep_startTag (n : String) (attrs : List (String × String)) (r : List Char)
    (hn : goodName n = true) (ha : ∀ p ∈ attrs, goodAttrName p.1 = true) :
    tokStep ('<' :: (n.data ++ serAttrs attrs ++ '>' :: r)) =
      (some (Token.startTag n attrs), r) := by
  obtain ⟨⟨c, tl, hdata, hcl⟩, hchars⟩ := goodName_spec hn
  have hcr := lowerAlpha_range hcl
  have hnc : ∀ d ∈ n.data, isNameChar d = true := fun d hd =>
    goodNameChar_isNameChar (hchars d hd)
  have hheadOk : isTagOpen ('<' :: (n.data ++ serAttrs attrs ++ '>' :: r)) = true := by
    rw [hdata, List.cons_append, List.cons_append, isTagOpen]
    simp [isLowerAlpha]
    omega
  have htake : (n.data ++ (serAttrs attrs ++ '>' :: r)).takeWhile isNameChar = n.data := by
    rw [takeWhile_append_all hnc]
    cases attrs with
    | nil =>
      rw [show serAttrs [] = [] from rfl, List.nil_append,
        takeWhile_cons_false _ not_isNameChar_62, List.append_nil]
    | cons p ptl =>
      rw [show serAttrs (p :: ptl) = serAttr p ++ serAttrs ptl from rfl]
      rw [show (serAttr p ++ serAttrs ptl) ++ '>' :: r =
        ' ' :: (p.1.data ++ '=' :: '"' :: escapeAttr p.2.data ++ ['"'] ++
          (serAttrs ptl ++ '>' :: r)) by simp [serAttr, List.append_assoc]]
      rw [takeWhile_cons_false _ not_isNameChar_32, List.append_nil]
  have hdrop : (n.data ++ (serAttrs attrs ++ '>' :: r)).dropWhile isNameChar =
      serAttrs attrs ++ '>' :: r := by
    rw [dropWhile_append_all hnc]
    cases attrs with
    | nil =>
      rw [show serAttrs [] = [] from rfl, List.nil_append,
        dropWhile_cons_false _ not_isNameChar_62]
    | cons p ptl =>
      rw [show serAttrs (p :: ptl) = serAttr p ++ serAttrs ptl from rfl]
      rw [show (serAttr p ++ serAttrs ptl) ++ '>' :: r =
        ' ' :: (p.1.data ++ '=' :: '"' :: escapeAttr p.2.data ++ ['"'] ++
          (serAttrs ptl ++ '>' :: r)) by simp [serAttr, List.append_assoc]]
      rw [dropWhile_cons_false _ not_isNameChar_32]
  rw [tokStep.eq_def]
  simp only [hheadOk, if_true]
  -- the head of `n.data` is a lower-case letter, not '/' or '!'
  rw [show n.data ++ serAttrs attrs ++ '>' :: r =
    c :: (tl ++ (serAttrs attrs ++ '>' :: r)) by rw [hdata]; simp [List.append_assoc]]
  dsimp only
  rw [if_neg (show ¬ c.toNat = 47 by omega), if_neg (show ¬ c.toNat = 33 by omega)]
  rw [show c :: (tl ++ (serAttrs attrs ++ '>' :: r)) =
    n.data ++ (serAttrs attrs ++ '>' :: r) by rw [hdata]; rfl]
  rw [htake, hdrop]
  rw [show parseAttrs (serAttrs attrs ++ '>' :: r) =
    paGo (serAttrs attrs ++ '>' :: r).length (serAttrs attrs ++ '>' :: r) [] from rfl]
  rw [paGo_serAttrs attrs _ [] r ha (Nat.le_refl _)]
  simp only [List.reverse_nil, List.nil_append]
  rw [map_asciiLower_good hchars, string_mk_data]

theorem tokStep_endTag (n : String) (r : List Char) (hn : goodName n = true) :
    tokStep ('<' :: '/' :: (n.data ++ '>' :: r)) = (some (Token.endTag n), r) := by
  obtain ⟨⟨c, tl, hdata, hcl⟩, hchars⟩ := goodName_spec hn
  have hnc : ∀ d ∈ n.data, isNameChar d = true := fun d hd =>
    goodNameChar_isNameChar (hchars d hd)
  have hheadOk : isTagOpen ('<' :: '/' :: (n.data ++ '>' :: r)) = true := by
    simp [isTagOpen]
  have htake : (n.data ++ '>' :: r).takeWhile isNameChar = n.data := by
    rw [takeWhile_append_all hnc, takeWhile_cons_false _ not_isNameChar_62,
      List.append_nil]
  have hdrop : (n.data ++ '>' :: r).dropWhile isNameChar = '>' :: r := by
    rw [dropWhile_append_all hnc, dropWhile_cons_false _ not_isNameChar_62]
  have hnnil : n.data ≠ [] := by rw [hdata]; simp
  rw [tokStep.eq_def]
  simp only [hheadOk, if_true]
  rw [if_pos (by decide : ('/' : Char).toNat = 47), htake, if_neg hnnil, hdrop]
  rw [dropWhile_cons_false _ (by decide)]
  simp only []
  rw [map_asciiLower_good hchars, string_mk_data]

/-! ### Re-tokenizing a canonical token stream -/

theorem escapeText_ne_nil {s : List Char} (h : s ≠ []) : escapeText s ≠ [] := by
  cases s with
  | nil => exact absurd rfl h
  | cons c tl =>
    show escTextChar c ++ escapeText tl ≠ []
    intro hctr
    exact absurd (List.append_eq_nil.mp hctr).1 (escTextChar_ne_nil c)

theorem okSeq_tail {t : Token} {ts : List Token} (h : okSeq (t :: ts) = true) :
    okSeq ts = true := by
  cases t <;> simp only [okSeq] at h <;> first
    | exact h
    | exact (Bool.and_eq_true ..|>.mp h).2

theorem okSeq_chars_next {s : String} {ts : List Token}
    (h : okSeq (Token.chars s :: ts) = true) :
    ts = [] ∨ ∃ t2 ts2, ts = t2 :: ts2 ∧ isCharsTok t2 = false := by
  cases ts with
  | nil => exact Or.inl rfl
  | cons t2 ts2 =>
    refine Or.inr ⟨t2, ts2, rfl, ?_⟩
    simp only [okSeq, Bool.and_eq_true] at h
    cases t2 <;> first
      | rfl
      | exact absurd h.1 (by simp)

theorem serTokens_cons (t : Token) (ts : List Token) :
    serTokens (t :: ts) = serToken t ++ serTokens ts := rfl

theorem tokGo_step (F : Nat) (cs : List Char) (t : Token) (r : List Char)
    (hne : cs ≠ []) (hstep : tokStep cs = (some t, r)) :
    tokGo (F + 1) cs = t :: tokGo F r := by
  obtain ⟨c, cs', rfl⟩ : ∃ c cs', cs = c :: cs' := by
    cases cs with
    | nil => exact absurd rfl hne
    | cons c cs' => exact ⟨c, cs', rfl⟩
  rw [show tokGo (F + 1) (c :: cs') =
    (match tokStep (c :: cs') with
     | (some t, r) => t :: tokGo F r
     | (none, r) => tokGo F r) from rfl, hstep]

theorem isTagOpen_serToken_append {t : Token} (rest : List Char)
    (hg : goodToken t = true) (hc : isCharsTok t = false) :
    isTagOpen (serToken t ++ rest) = true := by
  cases t with
  | startTag n attrs =>
    have hn : goodName n = true := by
      simp only [goodToken, Bool.and_eq_true] at hg
      exact hg.1
    obtain ⟨⟨c, tl, hdata, hcl⟩, _⟩ := goodName_spec hn
    have := lowerAlpha_range hcl
    rw [show serToken (Token.startTag n attrs) ++ rest =
      '<' :: (n.data ++ (serAttrs attrs ++ '>' :: rest)) by
        simp [serToken, List.append_assoc]]
    rw [hdata, List.cons_append, isTagOpen]
    simp [isLowerAlpha, isUpperAlpha]
    omega
  | endTag n =>
    rw [show serToken (Token.endTag n) ++ rest =
      '<' :: '/' :: (n.data ++ '>' :: rest) by simp [serToken, List.append_assoc]]
    simp [isTagOpen]
  | chars s => simp [isCharsTok] at hc
  | comment s => simp [goodToken] at hg
  | doctype => simp [goodToken] at hg

theorem serToken_ne_nil {t : Token} (hg : goodToken t = true) : serToken t ≠ [] := by
  cases t with
  | startTag n attrs => simp [serToken]
  | endTag n => simp [serToken]
  | chars s =>
    have hs : s.data ≠ [] := by
      simp only [goodToken, Bool.not_eq_true', List.isEmpty_eq_false] at hg
      simpa [List.isEmpty_iff] using hg
    exact escapeText_ne_nil hs
  | comment s => simp [goodToken] at hg
  | doctype => simp [goodToken] at hg

theorem tokGo_serTokens :
    ∀ (ts : List Token), (∀ t ∈ ts, goodToken t = true) → okSeq ts = true →
      ∀ F, (serTokens ts).length ≤ F → tokGo F (serTokens ts) = ts
  | [], _, _, F, _ => by cases F <;> rfl
  | t :: ts', hgood, hseq, F, hF => by
    have hgt : goodToken t = true := hgood t (List.mem_cons_self ..)
    have hgood' : ∀ u ∈ ts', goodToken u = true :=
      fun u hu => hgood u (List.mem_cons_of_mem t hu)
    have hseq' : okSeq ts' = true := okSeq_tail hseq
    have hne : serTokens (t :: ts') ≠ [] := by
      rw [serTokens_cons]
      intro hctr
      exact absurd (List.append_eq_nil.mp hctr).1 (serToken_ne_nil hgt)
    have hlen : (serTokens (t :: ts')).length =
        (serToken t).length + (serTokens ts').length := by
      rw [serTokens_cons, List.length_append]
    have htne : 1 ≤ (serToken t).length := by
      cases h : serToken t with
      | nil => exact absurd h (serToken_ne_nil hgt)
      | cons a b => simp
    obtain ⟨F', rfl⟩ : ∃ F', F = F' + 1 := ⟨F - 1, by omega⟩
    have hF' : (serTokens ts').length ≤ F' := by omega
    have hstep : tokStep (serTokens (t :: ts')) = (some t, serTokens ts') := by
      cases t with
      | startTag n attrs =>
        have hshape : serTokens (Token.startTag n attrs :: ts') =
            '<' :: (n.data ++ serAttrs attrs ++ '>' :: serTokens ts') := by
          rw [serTokens_cons]
          simp [serToken, List.append_assoc]
        rw [hshape]
        have hn : goodName n = true ∧ ∀ p ∈ attrs, goodAttrName p.1 = true := by
          simp only [goodToken, Bool.and_eq_true, List.all_eq_true] at hgt
          exact ⟨hgt.1, fun p hp => hgt.2 p hp⟩
        exact tokStep_startTag n attrs _ hn.1 hn.2
      | endTag n =>
        have hshape : serTokens (Token.endTag n :: ts') =
            '<' :: '/' :: (n.data ++ '>' :: serTokens ts') := by
          rw [serTokens_cons]
          simp [serToken, List.append_assoc]
        rw [hshape]
        exact tokStep_endTag n _ (by simpa [goodToken] using hgt)
      | chars s =>
        have hs : s.data ≠ [] := by
          simp only [goodToken, Bool.not_eq_true', List.isEmpty_eq_false] at hgt
          simpa [List.isEmpty_iff] using hgt
        have hnext : serTokens ts' = [] ∨ isTagOpen (serTokens ts') = true := by
          rcases okSeq_chars_next hseq with rfl | ⟨t2, ts2, rfl, hct⟩
          · exact Or.inl rfl
          · refine Or.inr ?_
            rw [serTokens_cons]
            exact isTagOpen_serToken_append _ (hgood' t2 (List.mem_cons_self ..)) hct
        rw [serTokens_cons]
        exact tokStep_chars s _ hs hnext
      | comment s => simp [goodToken] at hgt
      | doctype => simp [goodToken] at hgt
    rw [tokGo_step F' _ t _ hne hstep,
      tokGo_serTokens ts' hgood' hseq' F' hF']

/-- Tokenizing a canonically serialized token stream recovers it exactly. -/
theorem tokenize_serTokens (ts : List Token)
    (hgood : ∀ t ∈ ts, goodToken t = true) (hseq : okSeq ts = true) :
    tokenize (serTokens ts) = ts :=
  tokGo_serTokens ts hgood hseq _ (Nat.le_refl _)

theorem elements_all_goodName : ALLOWED_HTML_ELEMENTS.all goodName = true := by decide

theorem attributes_all_goodAttrName :
    ALLOWED_HTML_ATTRIBUTES.all goodAttrName = true := by decide

theorem string_eq_empty_iff (s : String) : s = "" ↔ s.data = [] := by
  cases s
  simp [String.ext_iff]

theorem passed_good_tag {t : Token} (hp : passedTok t = true)
    (hc : isCharsTok t = false) : goodToken t = true := by
  cases t with
  | startTag n attrs =>
    simp only [passedTok, Bool.and_eq_true, List.all_eq_true] at hp
    simp only [goodToken, Bool.and_eq_true, List.all_eq_true]
    constructor
    · exact List.all_eq_true.mp elements_all_goodName n (List.elem_iff.mp hp.1)
    · intro p hp2
      exact List.all_eq_true.mp attributes_all_goodAttrName p.1
        (List.elem_iff.mp (hp.2 p hp2))
  | endTag n =>
    simp only [passedTok] at hp
    exact List.all_eq_true.mp elements_all_goodName n (List.elem_iff.mp hp)
  | chars s => simp [isCharsTok] at hc
  | comment s => simp [passedTok] at hp
  | doctype => simp [passedTok] at hp

theorem filterTokens_passed (ts : List Token) :
    ∀ t ∈ filterTokens ALLOWED_HTML_ELEMENTS ALLOWED_HTML_ATTRIBUTES ts,
      passedTok t = true := by
  intro t ht
  rw [filterTokens, List.mem_filterMap] at ht
  obtain ⟨a, _, ha⟩ := ht
  cases a with
  | startTag n attrs =>
    rw [sanitizeToken] at ha
    split at ha
    · rename_i hmem
      injection ha with ha
      subst ha
      simp only [passedTok, hmem, Bool.true_and, List.all_eq_true]
      intro p hp
      exact (List.mem_filter.mp hp).2
    · cases ha
  | endTag n =>
    rw [sanitizeToken] at ha
    split at ha
    · rename_i hmem
      injection ha with ha
      subst ha
      simpa [passedTok] using hmem
    · cases ha
  | chars s =>
    rw [sanitizeToken] at ha
    injection ha with ha
    subst ha
    rfl
  | comment s => cases ha
  | doctype => cases ha

theorem mergeChars_chars_cons (s : String) (rest : List Token) :
    mergeChars (Token.chars s :: rest) =
      (match mergeChars rest with
       | Token.chars t :: r2 => mkChars (s ++ t) r2
       | r => mkChars s r) := rfl

theorem goodToken_chars_ne {s : String} (h : goodToken (Token.chars s) = true) :
    s ≠ "" := by
  simp only [goodToken, Bool.not_eq_true', List.isEmpty_eq_false] at h
  intro hc
  exact h ((string_eq_empty_iff s).mp hc)

theorem goodToken_chars_of_ne {s : String} (h : s ≠ "") :
    goodToken (Token.chars s) = true := by
  simp only [goodToken, Bool.not_eq_true', List.isEmpty_eq_false]
  intro hc
  exact h ((string_eq_empty_iff s).mpr hc)

theorem okSeq_cons_not_chars {t : Token} {ts : List Token}
    (hc : isCharsTok t = false) (h : okSeq ts = true) : okSeq (t :: ts) = true := by
  cases t
  case chars s => simp [isCharsTok] at hc
  all_goals simp [okSeq, h]

theorem mergeChars_inv :
    ∀ ts : List Token, (∀ t ∈ ts, passedTok t = true) →
      (∀ t ∈ mergeChars ts, passedTok t = true ∧ goodToken t = true) ∧
        okSeq (mergeChars ts) = true
  | [], _ => ⟨fun t ht => absurd ht (List.not_mem_nil t), rfl⟩
  | Token.chars s :: rest, hp => by
    have ih := mergeChars_inv rest
      (fun t ht => hp t (List.mem_cons_of_mem _ ht))
    rw [mergeChars_chars_cons]
    cases hm : mergeChars rest with
    | nil =>
      by_cases hs : s = ""
      · simp [mkChars, hs, okSeq]
      · refine ⟨?_, ?_⟩
        · intro t ht
          simp only [mkChars, if_neg hs] at ht
          rcases List.mem_singleton.mp ht with rfl
          exact ⟨rfl, goodToken_chars_of_ne hs⟩
        · simp [mkChars, if_neg hs, okSeq]
    | cons t2 r2 =>
      rw [hm] at ih
      cases t2 with
      | chars u =>
        have hu : u ≠ "" := goodToken_chars_ne
          (ih.1 (Token.chars u) (List.mem_cons_self ..)).2
        have hsu : ¬ (s ++ u) = "" := by
          intro hctr
          rw [string_eq_empty_iff, String.data_append, List.append_eq_nil] at hctr
          exact hu ((string_eq_empty_iff u).mpr hctr.2)
        refine ⟨?_, ?_⟩
        · intro t ht
          simp only [mkChars, if_neg hsu] at ht
          rcases List.mem_cons.mp ht with rfl | ht2
          · exact ⟨rfl, goodToken_chars_of_ne hsu⟩
          · exact ih.1 t (List.mem_cons_of_mem _ ht2)
        · simp only [mkChars, if_neg hsu]
          have h2 := ih.2
          simp only [okSeq, Bool.and_eq_true] at h2 ⊢
          exact h2
      | startTag n attrs =>
        by_cases hs : s = ""
        · simpa [mkChars, hs] using ih
        · refine ⟨?_, ?_⟩
          · intro t ht
            simp only [mkChars, if_neg hs] at ht
            rcases List.mem_cons.mp ht with rfl | ht2
            · exact ⟨rfl, goodToken_chars_of_ne hs⟩
            · exact ih.1 t ht2
          · simp only [mkChars, if_neg hs, okSeq, Bool.and_eq_true]
            exact ⟨trivial, ih.2⟩
      | endTag n =>
        by_cases hs : s = ""
        · simpa [mkChars, hs] using ih
        · refine ⟨?_, ?_⟩
          · intro t ht
            simp only [mkChars, if_neg hs] at ht
            rcases List.mem_cons.mp ht with rfl | ht2
            · exact ⟨rfl, goodToken_chars_of_ne hs⟩
            · exact ih.1 t ht2
          · simp only [mkChars, if_neg hs, okSeq, Bool.and_eq_true]
            exact ⟨trivial, ih.2⟩
      | comment u =>
        exact absurd (ih.1 (Token.comment u) (List.mem_cons_self ..)).1 (by simp [passedTok])
      | doctype =>
        exact absurd (ih.1 Token.doctype (List.mem_cons_self ..)).1 (by simp [passedTok])
  | Token.startTag n attrs :: rest, hp => by
    have ih := mergeChars_inv rest (fun t ht => hp t (List.mem_cons_of_mem _ ht))
    have hpt : passedTok (Token.startTag n attrs) = true :=
      hp _ (List.mem_cons_self ..)
    refine ⟨?_, ?_⟩
    · intro t ht
      rcases List.mem_cons.mp ht with rfl | ht2
      · exact ⟨hpt, passed_good_tag hpt rfl⟩
      · exact ih.1 t ht2
    · exact okSeq_cons_not_chars rfl ih.2
  | Token.endTag n :: rest, hp => by
    have ih := mergeChars_inv rest (fun t ht => hp t (List.mem_cons_of_mem _ ht))
    have hpt : passedTok (Token.endTag n) = true := hp _ (List.mem_cons_self ..)
    refine ⟨?_, ?_⟩
    · intro t ht
      rcases List.mem_cons.mp ht with rfl | ht2
      · exact ⟨hpt, passed_good_tag hpt rfl⟩
      · exact ih.1 t ht2
    · exact okSeq_cons_not_chars rfl ih.2
  | Token.comment u :: rest, hp =>
    absurd (hp _ (List.mem_cons_self ..)) (by simp [passedTok])
  | Token.doctype :: rest, hp =>
    absurd (hp _ (List.mem_cons_self ..)) (by simp [passedTok])

/-! ### The token stream of a sanitized fragment -/

/-- The token stream obtained by re-tokenizing `sanitize_html x` is exactly
the merged, filtered token stream of `x`. -/
theorem sanitize_tokens (x : String) :
    tokenize (sanitize_html x).data =
      mergeChars (filterTokens ALLOWED_HTML_ELEMENTS ALLOWED_HTML_ATTRIBUTES
        (tokenize x.data)) := by
  have hinv := mergeChars_inv
    (filterTokens ALLOWED_HTML_ELEMENTS ALLOWED_HTML_ATTRIBUTES (tokenize x.data))
    (filterTokens_passed _)
  exact tokenize_serTokens _ (fun t ht => (hinv.1 t ht).2) hinv.2

/-- A token that passes the filter is returned unchanged by `sanitizeToken`. -/
theorem sanitizeToken_passed {t : Token} (hp : passedTok t = true) :
    sanitizeToken ALLOWED_HTML_ELEMENTS ALLOWED_HTML_ATTRIBUTES t = some t := by
  cases t with
  | startTag n attrs =>
    simp only [passedTok, Bool.and_eq_true, List.all_eq_true] at hp
    rw [sanitizeToken, if_pos hp.1]
    congr 1
    congr 1
    exact List.filter_eq_self.mpr hp.2
  | endTag n =>
    simp only [passedTok] at hp
    rw [sanitizeToken, if_pos hp]
  | chars s => rfl
  | comment s => simp [passedTok] at hp
  | doctype => simp [passedTok] at hp

theorem filterTokens_id {ts : List Token} (hp : ∀ t ∈ ts, passedTok t = true) :
    filterTokens ALLOWED_HTML_ELEMENTS ALLOWED_HTML_ATTRIBUTES ts = ts := by
  induction ts with
  | nil => rfl
  | cons t rest ih =>
    show List.filterMap _ (t :: rest) = t :: rest
    rw [List.filterMap_cons, sanitizeToken_passed (hp t (List.mem_cons_self ..))]
    exact congrArg (t :: ·) (ih (fun u hu => hp u (List.mem_cons_of_mem t hu)))

theorem mergeChars_id :
    ∀ {ts : List Token}, okSeq ts = true → (∀ t ∈ ts, goodToken t = true) →
      mergeChars ts = ts
  | [], _, _ => rfl
  | Token.chars s :: rest, hseq, hgood => by
    have hs : s ≠ "" := goodToken_chars_ne (hgood _ (List.mem_cons_self ..))
    have ih : mergeChars rest = rest :=
      mergeChars_id (okSeq_tail hseq) (fun u hu => hgood u (List.mem_cons_of_mem _ hu))
    rw [mergeChars_chars_cons, ih]
    rcases okSeq_chars_next hseq with rfl | ⟨t2, ts2, rfl, hct⟩
    · simp [mkChars, hs]
    · cases t2 <;> simp [isCharsTok] at hct ⊢ <;> simp [mkChars, hs]
  | Token.startTag n attrs :: rest, hseq, hgood => by
    rw [show mergeChars (Token.startTag n attrs :: rest) =
      Token.startTag n attrs :: mergeChars rest from rfl,
      mergeChars_id (okSeq_tail hseq) (fun u hu => hgood u (List.mem_cons_of_mem _ hu))]
  | Token.endTag n :: rest, hseq, hgood => by
    rw [show mergeChars (Token.endTag n :: rest) = Token.endTag n :: mergeChars rest
      from rfl,
      mergeChars_id (okSeq_tail hseq) (fun u hu => hgood u (List.mem_cons_of_mem _ hu))]
  | Token.comment u :: rest, hseq, hgood =>
    absurd (hgood _ (List.mem_cons_self ..)) (by simp [goodToken])
  | Token.doctype :: rest, hseq, hgood =>
    absurd (hgood _ (List.mem_cons_self ..)) (by simp [goodToken])

theorem elements_no_script : ALLOWED_HTML_ELEMENTS.all (fun n => n != "script") = true := by
  decide

theorem attributes_benign :
    ALLOWED_HTML_ATTRIBUTES.all
      (fun a => !(List.isPrefixOf "on".data a.data) && a != "style") = true := by
  decide

theorem passed_tokenAllowed {t : Token} (hp : passedTok t = true) :
    tokenAllowed t = true := by
  cases t with
  | startTag n attrs =>
    simp only [passedTok, Bool.and_eq_true, List.all_eq_true] at hp
    simp only [tokenAllowed, Bool.and_eq_true, List.all_eq_true]
    refine ⟨⟨hp.1, ?_⟩, ?_⟩
    · exact List.all_eq_true.mp elements_no_script n (List.elem_iff.mp hp.1)
    · intro p hmem
      have hpa := hp.2 p hmem
      have := List.all_eq_true.mp attributes_benign p.1 (List.elem_iff.mp hpa)
      simp only [Bool.and_eq_true] at this
      exact ⟨⟨hpa, this.1⟩, this.2⟩
  | endTag n =>
    simp only [passedTok] at hp
    simp only [tokenAllowed, Bool.and_eq_true]
    exact ⟨hp, List.all_eq_true.mp elements_no_script n (List.elem_iff.mp hp)⟩
  | chars s => rfl
  | comment s => simp [passedTok] at hp
  | doctype => simp [passedTok] at hp

theorem tokensText_filter (ts : List Token) :
    tokensText (filterTokens ALLOWED_HTML_ELEMENTS ALLOWED_HTML_ATTRIBUTES ts) =
      tokensText ts := by
  induction ts with
  | nil => rfl
  | cons t rest ih =>
    show tokensText (List.filterMap _ (t :: rest)) = _
    rw [List.filterMap_cons]
    cases t with
    | startTag n attrs =>
      rw [sanitizeToken]
      by_cases hmem : ALLOWED_HTML_ELEMENTS.contains n = true
      · rw [if_pos hmem]
        exact ih
      · rw [if_neg hmem]
        exact ih
    | endTag n =>
      rw [sanitizeToken]
      by_cases hmem : ALLOWED_HTML_ELEMENTS.contains n = true
      · rw [if_pos hmem]
        exact ih
      · rw [if_neg hmem]
        exact ih
    | chars s => exact congrArg (s.data ++ ·) ih
    | comment s => exact ih
    | doctype => exact ih

theorem tokensText_mkChars (s : String) (r : List Token) :
    tokensText (mkChars s r) = s.data ++ tokensText r := by
  by_cases hs : s = ""
  · subst hs
    simp [mkChars]
  · simp only [mkChars, if_neg hs]
    rfl

theorem tokensText_merge :
    ∀ ts : List Token, tokensText (mergeChars ts) = tokensText ts
  | [] => rfl
  | Token.chars s :: rest => by
    have ih := tokensText_merge rest
    rw [mergeChars_chars_cons,
      show tokensText (Token.chars s :: rest) = s.data ++ tokensText rest from rfl]
    cases hm : mergeChars rest with
    | nil =>
      rw [hm] at ih
      rw [tokensText_mkChars, ih]
    | cons t2 r2 =>
      rw [hm] at ih
      cases t2 with
      | chars u =>
        rw [tokensText_mkChars, String.data_append, List.append_assoc]
        rw [show tokensText (Token.chars u :: r2) = u.data ++ tokensText r2 from rfl] at ih
        rw [ih]
      | startTag n attrs => rw [tokensText_mkChars, ih]
      | endTag n => rw [tokensText_mkChars, ih]
      | comment u => rw [tokensText_mkChars, ih]
      | doctype => rw [tokensText_mkChars, ih]
  | Token.startTag n attrs :: rest => by
    rw [show mergeChars (Token.startTag n attrs :: rest) =
      Token.startTag n attrs :: mergeChars rest from rfl]
    exact tokensText_merge rest
  | Token.endTag n :: rest => by
    rw [show mergeChars (Token.endTag n :: rest) =
      Token.endTag n :: mergeChars rest from rfl]
    exact tokensText_merge rest
  | Token.comment u :: rest => by
    rw [show mergeChars (Token.comment u :: rest) =
      Token.comment u :: mergeChars rest from rfl]
    exact tokensText_merge rest
  | Token.doctype :: rest => by
    rw [show mergeChars (Token.doctype :: rest) =
      Token.doctype :: mergeChars rest from rfl]
    exact tokensText_merge rest

/-! ## Claim theorems: `sanitize_html` -/

/-- C1.  Allow-list closure: every element tag name and every attribute name
appearing in the output of `sanitize_html` is a member of the configured
`allowed_elements` / `allowed_attributes` sets; in particular no `script`
element, no `on*` event-handler attribute and no `style` attribute ever
appears in the output. -/
theorem sanitize_html_allowlist_closure (x : String) (t : Token)
    (ht : t ∈ tokenize (sanitize_html x).data) : tokenAllowed t = true := by
  rw [sanitize_tokens] at ht
  exact passed_tokenAllowed
    (((mergeChars_inv _ (filterTokens_passed _)).1 t ht).1)

/-- Witness for C1 at a concrete adversarial input. -/
theorem sanitize_html_allowlist_closure_witness :
    (Token.startTag "p" [("class", "k")]) ∈ tokenize (sanitize_html
      "<p style=\"c\" onclick=\"a\" class=\"k\"><script>alert(1)</script>hi</p>").data ∧
    tokenAllowed (Token.startTag "p" [("class", "k")]) = true :=
  ⟨by decide, sanitize_html_allowlist_closure
    "<p style=\"c\" onclick=\"a\" class=\"k\"><script>alert(1)</script>hi</p>"
    (Token.startTag "p" [("class", "k")]) (by decide)⟩

/-- C2.  Idempotence of sanitization: for every input string `x`,
`sanitize_html (sanitize_html x) = sanitize_html x`. -/
theorem sanitize_html_idempotent (x : String) :
    sanitize_html (sanitize_html x) = sanitize_html x := by
  have hinv := mergeChars_inv
    (filterTokens ALLOWED_HTML_ELEMENTS ALLOWED_HTML_ATTRIBUTES (tokenize x.data))
    (filterTokens_passed _)
  show String.mk (serTokens (mergeChars (filterTokens ALLOWED_HTML_ELEMENTS
    ALLOWED_HTML_ATTRIBUTES (tokenize (sanitize_html x).data)))) = sanitize_html x
  rw [sanitize_tokens x, filterTokens_id (fun t ht => (hinv.1 t ht).1),
    mergeChars_id hinv.2 (fun t ht => (hinv.1 t ht).2)]
  rfl

/-- C5.  The sanitizer unwraps disallowed tags rather than deleting their
subtree: the character data of the sanitized output equals the character
data of the input token stream (only tag markup is removed), and in the
concrete example the content of the disallowed `<blink>` element is kept. -/
theorem sanitize_html_unwraps_disallowed :
    (∀ x : String, tokensText (tokenize (sanitize_html x).data) =
        tokensText (tokenize x.data)) ∧
      sanitize_html "<blink>hi</blink> there" = "hi there" := by
  constructor
  · intro x
    rw [sanitize_tokens, tokensText_merge, tokensText_filter]
  · decide

theorem flatten_map_singleton {α : Type} {f : α → List α} :
    ∀ {l : List α}, (∀ x ∈ l, f x = [x]) → (l.map f).flatten = l
  | [], _ => rfl
  | x :: l, h => by
    rw [List.map_cons, List.flatten_cons, h x (List.mem_cons_self ..),
      flatten_map_singleton (fun y hy => h y (List.mem_cons_of_mem x hy))]
    rfl

/-! ## Claim theorems: tree-based transforms -/

/-- C3 counterexample.  `strip_tags("<b>hi</b> there", ["b"])` does not
return `"hi there"`: the matched node is replaced by `''` wholesale
(`v.replaceWith('')`), deleting its text content. -/
theorem strip_tags_not_unwrap :
    strip_tags "<b>hi</b> there" (some ["b"]) ≠ Except.ok "hi there" := by
  intro h
  have h3 : Except.ok (ε := String) " there" = Except.ok "hi there" := h
  have h2 : (" there" : String) = "hi there" := by injection h3
  exact absurd h2 (by decide)

/-- C3 amended.  `strip_tags` removes every matching node together with its
entire content (delete-subtree, not unwrap):
`strip_tags("<b>hi</b> there", ["b"])` returns `" there"`, and a matching
node nested in other markup disappears with its text. -/
theorem strip_tags_removes_subtree :
    strip_tags "<b>hi</b> there" (some ["b"]) = Except.ok " there" ∧
      strip_tags "<p>a<b>hi</b>z</p>" (some ["b"]) = Except.ok "<p>az</p>" := by
  exact ⟨rfl, rfl⟩

/-- C4 counterexample.  With both moderation flags false, `moderate_tags`
does not return its input unchanged: the `@sanitized` decorator still
re-sanitizes it, so `<B>x</B>` comes back canonicalized as `<b>x</b>`. -/
theorem moderate_tags_not_identity :
    moderate_tags false false (HNode.text "m") "<B>x</B>" ≠ "<B>x</B>" := by
  decide

/-- C4 amended.  When both `MODERATE_LINKS` and `MODERATE_IMAGES` are false
the inner function short-circuits and returns its input, and the public
`moderate_tags` therefore returns exactly `sanitize_html html` — the input
unchanged up to the canonicalization of the terminal sanitize pass. -/
theorem moderate_tags_flags_off (ph : HNode) (html : String) :
    moderate_tags false false ph html = sanitize_html html := by
  simp [moderate_tags]

/-- C9.  Fail-fast precondition of `strip_tags`: on any non-blank input,
calling it without `tags` raises `AssertionError` instead of silently doing
nothing. -/
theorem strip_tags_requires_tags (html : String) (h : pyStrip html ≠ "") :
    strip_tags html none = Except.error "AssertionError" := by
  rw [strip_tags, strip_tags_inner, if_neg h]
  rfl

/-- Witness for C9 at the concrete input `"x"`. -/
theorem strip_tags_requires_tags_witness :
    pyStrip "x" ≠ "" ∧ strip_tags "x" none = Except.error "AssertionError" :=
  ⟨by decide, strip_tags_requires_tags "x" (by decide)⟩

/-- C7.  Auto-linker skip contexts: a text node below an ancestor in
`{a, img, pre, code}` is never touched (the whole subtree below a
skip-context ancestor is returned unchanged, and an element named by one of
the skip tags protects its children); a bare URL in ordinary text becomes
an anchor whose `href` is the full URL.  The concrete examples show
`<code>` content left un-linkified and `visit http://x.com now` gaining an
anchor with `href="http://x.com"`. -/
theorem urlize_html_skip_contexts :
    (∀ (limit fuel : Nat) (x : HNode), urlNode limit fuel true x = [x]) ∧
      (∀ (limit fuel : Nat) (n : String) (a : List (String × String))
        (cs : List HNode),
        (["a", "img", "pre", "code"] : List String).contains n = true →
          urlNode limit (fuel + 1) false (HNode.elem n a cs) =
            [HNode.elem n a cs]) ∧
      urlize_html 40 "<code>http://x.com</code>" = "<code>http://x.com</code>" ∧
      urlize_html 40 "visit http://x.com now" =
        " visit  <a href=\"http://x.com\">http://x.com</a>  now " := by
  have hskip : ∀ (limit fuel : Nat) (x : HNode), urlNode limit fuel true x = [x] := by
    intro limit fuel
    induction fuel with
    | zero => intro x; rfl
    | succ fuel ih =>
      intro x
      cases x with
      | text s => rfl
      | elem n a cs =>
        rw [urlNode]
        rw [show (true || (["a", "img", "pre", "code"] : List String).contains n)
          = true from rfl]
        rw [flatten_map_singleton (fun y _ => ih y)]
  refine ⟨hskip, ?_, by decide, by decide⟩
  intro limit fuel n a cs hn
  rw [urlNode, show (false || (["a", "img", "pre", "code"] : List String).contains n)
    = (["a", "img", "pre", "code"] : List String).contains n from rfl, hn,
    flatten_map_singleton (fun y _ => hskip limit fuel y)]

/-! ## Claim theorems: URL rewriting and formatting -/

/-- C6 counterexample.  An absolute URL containing `base_url//` is not left
untouched: the final doubled-slash collapse is applied globally to the whole
string, so `<img src="http://h//x.png">` is changed (to
`<img src="http://h/x.png">`) even though its `src` value has a scheme and
does not start with `/`. -/
theorem absolutize_urls_touches_absolute :
    absolutize_urls "http://h" "<img src=\"http://h//x.png\">" ≠
      "<img src=\"http://h//x.png\">" := by
  decide

/-- C6 amended.  `absolutize_urls` rewrites a root-relative, quoted
`src`/`href` value to `base_url + path` when the value starts with `/`
followed by at least one more character (the regex requires `/[^"]+`), and
collapses the doubled slash arising from concatenation; values that are
absolute URLs with a scheme and relative values without a leading slash are
not matched by the regexes — but the doubled-slash collapse is global, so
any occurrence of `base_url//` anywhere in the string (including inside an
absolute URL) is also collapsed, and a value of exactly `/` is not
rewritten. -/
theorem absolutize_urls_rewrites :
    absolutize_urls "http://h" "<img src=\"/a.png\">" =
        "<img src=\"http://h/a.png\">" ∧
      absolutize_urls "http://h" "<img src=\"http://other/a.png\">" =
        "<img src=\"http://other/a.png\">" ∧
      absolutize_urls "http://h" "<a href=\"/p/q\">x</a>" =
        "<a href=\"http://h/p/q\">x</a>" ∧
      absolutize_urls "http://h" "<img src=\"/\">" = "<img src=\"/\">" ∧
      absolutize_urls "http://h" "<img src=\"http://h//x.png\">" =
        "<img src=\"http://h/x.png\">" :=
  ⟨rfl, rfl, rfl, rfl, rfl⟩

/-- C10.  Quote normalization: every value rewritten by `absolutize_urls`
is emitted enclosed in double quotes — the replacement template quotes the
value with `"` by construction, and a single-quoted matched attribute comes
out double-quoted. -/
theorem absolutize_urls_double_quotes :
    (∀ mid pre url : List Char,
      replTemplate mid pre url = pre ++ ['"'] ++ (mid ++ url) ++ ['"']) ∧
      absolutize_urls "http://h" "<img src='/a.png'>" =
        "<img src=\"http://h/a.png\">" ∧
      absolutize_urls "http://h" "<a href='/p'>x</a>" =
        "<a href=\"http://h/p\">x</a>" := by
  refine ⟨?_, rfl, rfl⟩
  intro mid pre url
  simp [replTemplate]

/-- C8.  The format rule of `format_url_replacement` is exactly the spec's
rule (trim both; both non-empty and text distinct from the URL and from its
host yields `"url (text)"`; otherwise whichever is non-empty, else `""`),
and the two concrete examples behave as claimed. -/
theorem format_url_replacement_rule :
    (∀ url text : String,
      format_url_replacement url text = formatRuleSpec url text) ∧
      format_url_replacement "http://x.com" "x.com" = "http://x.com" ∧
      format_url_replacement "http://x.com" "Click" = "http://x.com (Click)" := by
  refine ⟨?_, rfl, rfl⟩
  intro url text
  simp only [format_url_replacement, formatRuleSpec]
  have hiff : (pyStrip url ≠ "" ∧ pyStrip text ≠ "" ∧
      netloc (pyStrip url) ≠ pyStrip text ∧ pyStrip url ≠ pyStrip text) ↔
      (pyStrip url ≠ "" ∧ pyStrip text ≠ "" ∧ pyStrip text ≠ pyStrip url ∧
        pyStrip text ≠ netloc (pyStrip url)) := by
    constructor
    · rintro ⟨h1, h2, h3, h4⟩
      exact ⟨h1, h2, h4.symm, h3.symm⟩
    · rintro ⟨h1, h2, h3, h4⟩
      exact ⟨h1, h2, h4.symm, h3.symm⟩
  rw [if_congr hiff rfl rfl]

end Askbot

